import Mathlib

/-!
# funfs: the gated unlink and the random population

A shallow embedding of `src/funfs.c`.  A directory is the list of child names
on `parent->d_subdirs`; the kernel services the module calls
(`get_random_bytes`, `lookup_one_len`, `new_inode`, `d_make_root`, `kstrtol`,
`snprintf`, `simple_unlink`) are modelled by their documented contract, and
what they may answer is passed in explicitly.
-/

namespace Funfs

/-! ## Data model -/

/-- A file name, `dentry->d_name.name`, as its characters. -/
abbrev Name := List Char

/-- The children of a directory in `d_subdirs` order: `d_alloc` links a new
child at the head of the list. -/
abbrev Dir := List Name

/-- The C constant `MAX_FILE_NUM`. -/
def MAX_FILE_NUM : Nat := 100

/-- The C constant `LONG_MAX` for a 64-bit `long`. -/
def LONG_MAX : Int := 2 ^ 63 - 1

/-- The errno `ENOMEM`. -/
def ENOMEM : Int := 12

/-- The errno `ENOSPC`. -/
def ENOSPC : Int := 28

/-! ## Kernel library: `kstrtol` and `snprintf("%d")` -/

/-- Whether `c` is one of `'0'` .. `'9'`. -/
def isDigit (c : Char) : Bool := decide (48 ≤ c.toNat) && decide (c.toNat ≤ 57)

/-- The digit a character stands for. -/
def digitVal (c : Char) : Nat := c.toNat - 48

/-- The kernel helper `_parse_integer` for base 10: consumes the longest
prefix of digits, accumulating from `acc`; returns the value, the number of
characters consumed and the rest of the string. -/
def _parse_integer : List Char → Nat → Nat → Nat × Nat × List Char
  | [], acc, cnt => (acc, cnt, [])
  | c :: cs, acc, cnt =>
    if isDigit c then _parse_integer cs (acc * 10 + digitVal c) (cnt + 1)
    else (acc, cnt, c :: cs)

/-- The kernel helper `_kstrtoull` for base 10: at least one digit, nothing
after the digits but one optional newline, and the value fits 64 bits
(`-EINVAL` and `-ERANGE` are both `none`). -/
def _kstrtoull (s : List Char) : Option Nat :=
  match _parse_integer s 0 0 with
  | (v, cnt, rest) =>
    if cnt = 0 then none
    else if 2 ^ 64 ≤ v then none
    else if rest = [] ∨ rest = ['\n'] then some v
    else none

/-- The kernel function `kstrtoull(s, 10, &res)`: skips one leading `'+'`. -/
def kstrtoull (s : List Char) : Option Nat :=
  if s.head? = some '+' then _kstrtoull s.tail else _kstrtoull s

/-- The kernel function `kstrtoll(s, 10, &res)`: after a leading `'-'` the
magnitude may reach `2 ^ 63`, otherwise the value stays below `2 ^ 63`. -/
def kstrtoll (s : List Char) : Option Int :=
  if s.head? = some '-' then
    match _kstrtoull s.tail with
    | none => none
    | some v => if 2 ^ 63 < v then none else some (-(v : Int))
  else
    match kstrtoull s with
    | none => none
    | some v => if 2 ^ 63 ≤ v then none else some (v : Int)

/-- The kernel function `kstrtol(s, 10, &res)` where `long` has 64 bits.
`some v` is return code 0 with `*res = v`; `none` is an error return, which
leaves `*res` untouched. -/
def kstrtol (s : Name) : Option Int := kstrtoll s

/-- The statement `kstrtol(name, 10, &var);` with the return code ignored, as
in `funfs_unlink`: the variable keeps its old content when the parse fails. -/
def kstrtol_store (name : Name) (old : Int) : Int :=
  match kstrtol name with
  | some v => v
  | none => old

/-- The character of a decimal digit. -/
def digitChar (n : Nat) : Char := Char.ofNat (48 + n)

/-- Decimal digits of `n`, most significant first, in front of `acc`
(`fuel` bounds the number of digits). -/
def utoa : Nat → Nat → List Char → List Char
  | 0, _, acc => acc
  | fuel + 1, n, acc =>
    if n / 10 = 0 then digitChar (n % 10) :: acc
    else utoa fuel (n / 10) (digitChar (n % 10) :: acc)

/-- The statement `snprintf(filename, 20, "%d", x)` for an `unsigned int x`:
the 32-bit word is printed as a signed `int`, and at most 19 characters are
kept. -/
def snprintf_d (x : Nat) : Name :=
  let w := x % 2 ^ 32
  (if w < 2 ^ 31 then utoa (w + 1) w []
   else '-' :: utoa (2 ^ 32 - w + 1) (2 ^ 32 - w) []).take 19

/-! ## What the kernel may answer -/

/-- The answers of the kernel during one iteration of the loop of
`funfs_create_files`. -/
structure Draw where
  /-- the four bytes written by `get_random_bytes` -/
  x : Nat
  /-- `lookup_one_len` returns an error pointer -/
  lookupErr : Bool
  /-- `new_inode` returns a non-NULL inode -/
  inodeOk : Bool

/-- The three outcomes of `lookup_one_len` that `funfs_create_file` tells
apart. -/
inductive Lookup where
  | err
  | positive
  | negative
  deriving DecidableEq, Repr

/-- The kernel function `lookup_one_len(name, dir, strlen(name))`: an error
pointer, the positive dentry of an existing child, or a fresh negative
dentry. -/
def lookup_one_len (k : Draw) (dir : Dir) (name : Name) : Lookup :=
  if k.lookupErr then Lookup.err
  else if name ∈ dir then Lookup.positive
  else Lookup.negative

/-- The function `funfs_make_inode`: the new inode (its mode) or NULL. -/
def funfs_make_inode (k : Draw) (mode : Nat) : Option Nat :=
  if k.inodeOk then some mode else none

/-- The mode `S_IFREG | 0644`. -/
def S_IFREG_0644 : Nat := 0o100644

/-! ## The module -/

/-- The function `funfs_create_file(sb, dir, name)`: the returned dentry
(`none` is NULL) and the directory afterwards. -/
def funfs_create_file (k : Draw) (dir : Dir) (name : Name) : Option Name × Dir :=
  match lookup_one_len k dir name with
  | Lookup.positive => (none, dir)
  | Lookup.err => (none, dir)
  | Lookup.negative =>
    match funfs_make_inode k S_IFREG_0644 with
    | none => (none, dir)
    | some _ => (some name, name :: dir)

/-- The name built in iteration `i` of `funfs_create_files`:
`x = (x % MAX_FILE_NUM) + 1; snprintf(filename, 20, "%d", x)`. -/
def drawName (k : Draw) : Name :=
  snprintf_d ((k.x % 2 ^ 32) % MAX_FILE_NUM + 1)

/-- The function `funfs_create_files(sb, n)` on the root directory `dir`:
`for (i = 0; i < n; i++)`, iteration `i` using the answers `env i`. -/
def funfs_create_files (env : Nat → Draw) (dir : Dir) (n : Int) : Dir :=
  (List.range n.toNat).foldl
    (fun d i => (funfs_create_file (env i) d (drawName (env i))).2) dir

/-- The kernel function `simple_unlink(dir, dentry)`: the child leaves the
directory, the result is always 0. -/
def simple_unlink (dir : Dir) (dentry : Name) : Int × Dir :=
  (0, dir.erase dentry)

/-- The indeterminate contents of the locals `rmnum` and `curnum` of
`funfs_unlink`, which are declared without an initialiser. -/
structure Stack where
  rmnum : Int
  curnum : Int

/-- One iteration of the `list_for_each_entry` loop of `funfs_unlink`, on the
pair `(curnum, minnum)`. -/
def scanStep (st : Int × Int) (curname : Name) : Int × Int :=
  let curnum := kstrtol_store curname st.1
  if curnum ≤ st.2 then (curnum, curnum) else (curnum, st.2)

/-- The `list_for_each_entry` loop of `funfs_unlink`: returns `minnum`, which
starts at `LONG_MAX`. -/
def scanMin (dir : Dir) (curnum0 : Int) : Int :=
  (dir.foldl scanStep (curnum0, LONG_MAX)).2

/-- The function `funfs_unlink(dir, dentry)`: the result code and the
directory afterwards.  The module offers no `mkdir`, so `dir` is the root
`sb->s_root`, the directory that `funfs_create_files` fills. -/
def funfs_unlink (env : Nat → Draw) (s : Stack) (dir : Dir) (dentry : Name) : Int × Dir :=
  let rmnum := kstrtol_store dentry s.rmnum
  let minnum := scanMin dir s.curnum
  if rmnum ≤ minnum then simple_unlink dir dentry
  else (-1, funfs_create_files env dir 2)

/-- The function `funfs_fill_super`: the result code and, when the root was
made, the root directory.  `rootInode` and `rootDentry` say whether
`funfs_make_inode` and `d_make_root` succeed for the root, `n` is the word
written by `get_random_bytes`. -/
def funfs_fill_super (rootInode rootDentry : Bool) (n : Nat) (env : Nat → Draw) :
    Int × Option Dir :=
  if !rootInode then (-ENOSPC, none)
  else if !rootDentry then (-ENOMEM, none)
  else
    let n1 : Nat := (n % 2 ^ 32) % 11 + 5
    (0, some (funfs_create_files env [] (n1 : Int)))

/-! ## Predicates of the specification -/

/-- Every entry name parses as a base-10 integer. -/
def AllDecimal (d : Dir) : Prop := ∀ e ∈ d, (kstrtol e).isSome = true

instance (d : Dir) : Decidable (AllDecimal d) := by
  unfold AllDecimal; infer_instance

/-- The entries are decimal names of pairwise distinct integers. -/
def DistinctValues (d : Dir) : Prop := AllDecimal d ∧ (d.map kstrtol).Nodup

instance (d : Dir) : Decidable (DistinctValues d) := by
  unfold DistinctValues; infer_instance

/-- The C constant `LONG_MIN` for a 64-bit `long`. -/
def LONG_MIN : Int := -2 ^ 63

/-- The plain decimal rendering of an integer: a `'-'` for a negative value,
then the digits of the magnitude without leading zeros.  For a value that
fits an `int` this is what `"%d"` prints. -/
def printLong (w : Int) : Name :=
  if 0 ≤ w then utoa (w.toNat + 1) w.toNat []
  else '-' :: utoa (w.natAbs + 1) w.natAbs []

/-- The name `e` is the plain decimal rendering of its own value (no `'+'`, no
leading zero, no trailing newline, no `-0`), and that value lies in
`[lo, hi]`. -/
def canonicalIn (lo hi : Int) (e : Name) : Bool :=
  match kstrtol e with
  | some w => decide (lo ≤ w) && decide (w ≤ hi) && decide (printLong w = e)
  | none => false

/-- No name occurs twice and every name is the plain decimal rendering of its
value, which lies in `[lo, hi]`.  With `lo = LONG_MIN` and `hi = LONG_MAX`
the range is no restriction: `kstrtol` delivers no other value. -/
def Canonical (lo hi : Int) (d : Dir) : Prop :=
  d.Nodup ∧ ∀ e ∈ d, canonicalIn lo hi e = true

instance (lo hi : Int) (d : Dir) : Decidable (Canonical lo hi d) := by
  unfold Canonical; infer_instance

/-- Allocation succeeds in the iterations below `n`: `lookup_one_len` returns
no error and `new_inode` returns an inode. -/
def AllocOk (env : Nat → Draw) (n : Nat) : Prop :=
  ∀ i, i < n → (env i).lookupErr = false ∧ (env i).inodeOk = true

instance (env : Nat → Draw) (n : Nat) : Decidable (AllocOk env n) := by
  unfold AllocOk; infer_instance

/-- A sequence of `funfs_create_file` calls, each with its own kernel answers
and name. -/
def createSeq (d : Dir) (calls : List (Draw × Name)) : Dir :=
  calls.foldl (fun acc c => (funfs_create_file c.1 acc c.2).2) d

/-- The directories the module can produce: the root filled by
`funfs_fill_super`, then any number of `funfs_unlink` calls. -/
inductive Reachable : Dir → Prop where
  | mount (rootInode rootDentry : Bool) (n : Nat) (env : Nat → Draw) (d : Dir) :
      funfs_fill_super rootInode rootDentry n env = (0, some d) → Reachable d
  | unlink (env : Nat → Draw) (s : Stack) (d : Dir) (dentry : Name) :
      Reachable d → Reachable (funfs_unlink env s d dentry).2

/-! ## Fixtures -/

/-- The directory with the entries 3, 7 and 9. -/
def dir379 : Dir := [['3'], ['7'], ['9']]

/-- A kernel that draws the words of `xs` in turn (then 0) and whose
allocations all succeed. -/
def envOf (xs : List Nat) : Nat → Draw := fun i => ⟨xs.getD i 0, false, true⟩

/-- A kernel that draws the words of `xs` in turn (then 0) and whose
`new_inode` always fails. -/
def envNoInode (xs : List Nat) : Nat → Draw := fun i => ⟨xs.getD i 0, false, false⟩

/-- The names of all values from 1 to `MAX_FILE_NUM`. -/
def allNames : Dir := (List.range' 1 MAX_FILE_NUM).map snprintf_d

/-- A run of the module that fills the directory: the mount draws the 14
values 1 .. 14, then step `k` is the rejected `unlink("2")` that draws the
values `15 + 2 * k` and `16 + 2 * k`. -/
def fillRun : Nat → Dir
  | 0 => ((funfs_fill_super true true 9 (fun i => ⟨i, false, true⟩)).2).getD []
  | k + 1 =>
    (funfs_unlink (envOf [14 + 2 * k, 15 + 2 * k]) ⟨0, 0⟩ (fillRun k) ['2']).2

/-! ## Sanity checks on concrete inputs -/

example : kstrtol ['3'] = some 3 := by decide
example : kstrtol ['a', 'b', 'c'] = none := by decide
example : kstrtol ['-', '0'] = some 0 := by decide
example : kstrtol ['+', '7', '\n'] = some 7 := by decide
example : snprintf_d 100 = ['1', '0', '0'] := by decide
example : kstrtol (snprintf_d 42) = some 42 := by decide
example : canonicalIn LONG_MIN LONG_MAX ['-', '5'] = true := by decide
example : canonicalIn LONG_MIN LONG_MAX ['0', '3'] = false := by decide
example : canonicalIn LONG_MIN LONG_MAX ['-', '0'] = false := by decide
example : printLong (-120) = ['-', '1', '2', '0'] := by decide

/-! ## Decimal names: printing and parsing back -/

theorem isDigit_digitChar : ∀ d, d < 10 → isDigit (digitChar d) = true := by decide

theorem digitVal_digitChar : ∀ d, d < 10 → digitVal (digitChar d) = d := by decide

theorem utoa_isDigit (fuel : Nat) : ∀ (n : Nat) (acc : List Char),
    (∀ c ∈ acc, isDigit c = true) → ∀ c ∈ utoa fuel n acc, isDigit c = true := by
  induction fuel with
  | zero => intro n acc h; simpa [utoa] using h
  | succ f ih =>
    intro n acc h
    have hd : isDigit (digitChar (n % 10)) = true :=
      isDigit_digitChar _ (Nat.mod_lt _ (by norm_num))
    have hacc : ∀ c ∈ digitChar (n % 10) :: acc, isDigit c = true := by
      intro c hc
      rcases List.mem_cons.mp hc with rfl | hc
      · exact hd
      · exact h c hc
    unfold utoa
    split
    · exact hacc
    · exact ih _ _ hacc

/-- The value `_parse_integer` accumulates over a string of digits. -/
def digitsValue (acc : Nat) (s : List Char) : Nat :=
  s.foldl (fun a c => a * 10 + digitVal c) acc

theorem utoa_value (fuel : Nat) : ∀ (n : Nat) (acc : List Char), n < fuel →
    digitsValue 0 (utoa fuel n acc) = digitsValue n acc := by
  induction fuel with
  | zero => intro n acc h; omega
  | succ f ih =>
    intro n acc h
    unfold utoa
    split
    · rename_i h0
      have hn : n < 10 := by omega
      have hm : n % 10 = n := by omega
      simp [digitsValue, hm, digitVal_digitChar n hn]
    · rename_i h0
      rw [ih (n / 10) _ (by omega)]
      simp only [digitsValue, List.foldl_cons,
        digitVal_digitChar _ (Nat.mod_lt n (by norm_num))]
      congr 1
      omega

theorem utoa_length_ge (fuel : Nat) : ∀ (n : Nat) (acc : List Char),
    acc.length ≤ (utoa fuel n acc).length := by
  induction fuel with
  | zero => intro n acc; simp [utoa]
  | succ f ih =>
    intro n acc
    unfold utoa
    split
    · simp
    · exact le_trans (by simp) (ih _ _)

theorem utoa_length_pos (fuel n : Nat) (acc : List Char) :
    0 < (utoa (fuel + 1) n acc).length := by
  unfold utoa
  split
  · simp
  · exact lt_of_lt_of_le (by simp) (utoa_length_ge _ _ _)

theorem utoa_length_le (fuel : Nat) : ∀ (k n : Nat) (acc : List Char),
    1 ≤ k → n < 10 ^ k → (utoa fuel n acc).length ≤ k + acc.length := by
  induction fuel with
  | zero => intro k n acc _ _; simp [utoa]
  | succ f ih =>
    intro k n acc hk hn
    unfold utoa
    split
    · simp; omega
    · rename_i h0
      obtain ⟨j, rfl⟩ : ∃ j, k = j + 1 := ⟨k - 1, by omega⟩
      have hj : 1 ≤ j := by
        rcases Nat.eq_zero_or_pos j with rfl | hj
        · exfalso; apply h0; simp at hn; omega
        · exact hj
      have hlt : n / 10 < 10 ^ j := by
        rw [Nat.div_lt_iff_lt_mul (by norm_num)]
        rw [pow_succ] at hn; exact hn
      have := ih j (n / 10) (digitChar (n % 10) :: acc) hj hlt
      simp at this
      omega

theorem parse_integer_digits : ∀ (s : List Char) (acc cnt : Nat),
    (∀ c ∈ s, isDigit c = true) →
    _parse_integer s acc cnt = (digitsValue acc s, cnt + s.length, []) := by
  intro s
  induction s with
  | nil => intro acc cnt _; simp [_parse_integer, digitsValue]
  | cons c cs ih =>
    intro acc cnt h
    have hc : isDigit c = true := h c (List.mem_cons_self _ _)
    have hcs : ∀ c ∈ cs, isDigit c = true := fun c hc => h c (List.mem_cons_of_mem _ hc)
    simp only [_parse_integer, hc, if_true, ih _ _ hcs, digitsValue, List.foldl_cons,
      List.length_cons]
    congr 2
    omega

theorem kstrtoull_utoa (n : Nat) (hn : n < 2 ^ 64) :
    _kstrtoull (utoa (n + 1) n []) = some n := by
  have hdig : ∀ c ∈ utoa (n + 1) n [], isDigit c = true :=
    utoa_isDigit _ _ _ (by simp)
  have hpos := utoa_length_pos n n []
  have hval : digitsValue 0 (utoa (n + 1) n []) = n := by
    rw [utoa_value _ _ _ (Nat.lt_succ_self n)]; simp [digitsValue]
  unfold _kstrtoull
  rw [parse_integer_digits _ _ _ hdig, hval]
  have h1 : ¬ (0 + (utoa (n + 1) n []).length = 0) := by omega
  have h2 : ¬ (2 ^ 64 ≤ n) := by omega
  simp only [h1, h2, if_false, true_or, if_true]

theorem snprintf_d_eq_utoa (x : Nat) (hx : x < 2 ^ 31) :
    snprintf_d x = utoa (x + 1) x [] := by
  have hw : x % 2 ^ 32 = x := Nat.mod_eq_of_lt (by omega)
  have hlen : (utoa (x + 1) x []).length ≤ 19 := by
    have := utoa_length_le (x + 1) 10 x [] (by norm_num) (by norm_num; omega)
    simp at this; omega
  simp only [snprintf_d, hw, hx, if_true]
  exact List.take_of_length_le hlen

/-- For a value below `2 ^ 31`, `"%d"` prints the plain decimal rendering. -/
theorem printLong_eq_snprintf_d (x : Nat) (hx : x < 2 ^ 31) :
    printLong (x : Int) = snprintf_d x := by
  rw [snprintf_d_eq_utoa x hx]
  simp [printLong]

/-- Printing a value below `2 ^ 31` with `"%d"` and parsing the name back with
`kstrtol` gives the value. -/
theorem kstrtol_snprintf_d (x : Nat) (hx : x < 2 ^ 31) :
    kstrtol (snprintf_d x) = some (x : Int) := by
  have hs := snprintf_d_eq_utoa x hx
  have hdig : ∀ c ∈ utoa (x + 1) x [], isDigit c = true :=
    utoa_isDigit _ _ _ (by simp)
  have hhead : ∀ c, isDigit c = false → (utoa (x + 1) x []).head? ≠ some c := by
    intro c hc hh
    have hm : c ∈ utoa (x + 1) x [] := by
      cases hl : utoa (x + 1) x [] with
      | nil => rw [hl] at hh; simp at hh
      | cons a t => rw [hl] at hh; simp at hh; simp [hh]
    rw [hdig c hm] at hc
    exact Bool.noConfusion hc
  have hminus := hhead '-' (by decide)
  have hplus := hhead '+' (by decide)
  have h63 : ¬ ((2 : Nat) ^ 63 ≤ x) := by omega
  rw [hs]
  simp only [kstrtol, kstrtoll, kstrtoull, hminus, hplus, if_false,
    kstrtoull_utoa x (by omega), h63]

theorem snprintf_d_inj (x y : Nat) (hx : x < 2 ^ 31) (hy : y < 2 ^ 31)
    (h : snprintf_d x = snprintf_d y) : x = y := by
  have h1 := kstrtol_snprintf_d x hx
  rw [h, kstrtol_snprintf_d y hy] at h1
  exact_mod_cast (Option.some.inj h1).symm

/-- A value delivered by `kstrtol` fits a 64-bit `long`. -/
theorem kstrtol_le_LONG_MAX (s : Name) (v : Int) (h : kstrtol s = some v) :
    v ≤ LONG_MAX := by
  unfold kstrtol kstrtoll at h
  split at h
  · split at h
    · exact Option.noConfusion h
    · split at h
      · exact Option.noConfusion h
      · have := Option.some.inj h
        unfold LONG_MAX; omega
  · split at h
    · exact Option.noConfusion h
    · split at h
      · exact Option.noConfusion h
      · rename_i v0 _ hv
        have := Option.some.inj h
        unfold LONG_MAX
        have hv2 : (v0 : Int) < 2 ^ 63 := by exact_mod_cast (not_le.mp hv)
        omega

/-! ## The scan loop of `funfs_unlink` -/

theorem scan_snd_le_init (d : Dir) : ∀ (st : Int × Int),
    (d.foldl scanStep st).2 ≤ st.2 := by
  induction d with
  | nil => intro st; simp
  | cons e t ih =>
    intro st
    rw [List.foldl_cons]
    refine le_trans (ih _) ?_
    unfold scanStep
    dsimp only
    split
    · assumption
    · exact le_refl _

/-- The scan ends at or below the value of every entry that parses. -/
theorem scan_snd_le_of_mem (d : Dir) : ∀ (st : Int × Int) (e : Name) (w : Int),
    e ∈ d → kstrtol e = some w → (d.foldl scanStep st).2 ≤ w := by
  induction d with
  | nil => intro st e w h; simp at h
  | cons a t ih =>
    intro st e w he hw
    rw [List.foldl_cons]
    rcases List.mem_cons.mp he with rfl | he
    · refine le_trans (scan_snd_le_init t _) ?_
      unfold scanStep
      simp only [kstrtol_store, hw]
      split
      · exact le_refl _
      · rename_i h; exact le_of_lt (not_le.mp h)
    · exact ih _ e w he hw

/-- When every entry parses, the scan ends at its start value or at the value
of an entry. -/
theorem scan_snd_attained (d : Dir) : ∀ (st : Int × Int),
    (∀ e ∈ d, ∃ w, kstrtol e = some w) →
    (d.foldl scanStep st).2 = st.2 ∨ ∃ e ∈ d, kstrtol e = some (d.foldl scanStep st).2 := by
  induction d with
  | nil => intro st _; left; simp
  | cons a t ih =>
    intro st h
    rw [List.foldl_cons]
    obtain ⟨w, hw⟩ := h a (List.mem_cons_self _ _)
    have ht : ∀ e ∈ t, ∃ w, kstrtol e = some w := fun e he => h e (List.mem_cons_of_mem _ he)
    rcases ih (scanStep st a) ht with h1 | ⟨e, he, h1⟩
    · rw [h1]
      unfold scanStep
      simp only [kstrtol_store, hw]
      split
      · right; exact ⟨a, List.mem_cons_self _ _, hw⟩
      · left; rfl
    · right; exact ⟨e, List.mem_cons_of_mem _ he, h1⟩

/-- On a non-empty directory whose entries all parse, `minnum` is the value of
an entry. -/
theorem scanMin_attained (d : Dir) (c0 : Int) (hne : d ≠ [])
    (h : ∀ e ∈ d, ∃ w, kstrtol e = some w) :
    ∃ e ∈ d, kstrtol e = some (scanMin d c0) := by
  unfold scanMin
  rcases scan_snd_attained d (c0, LONG_MAX) h with h1 | h1
  · cases d with
    | nil => exact absurd rfl hne
    | cons a t =>
      obtain ⟨w, hw⟩ := h a (List.mem_cons_self _ _)
      have hle := scan_snd_le_of_mem (a :: t) (c0, LONG_MAX) a w (List.mem_cons_self _ _) hw
      have hmax := kstrtol_le_LONG_MAX a w hw
      rw [h1] at hle
      have : w = LONG_MAX := le_antisymm hmax hle
      refine ⟨a, List.mem_cons_self _ _, ?_⟩
      rw [h1, hw, this]
  · exact h1

/-! ## Creating files -/

theorem create_file_of_mem (k : Draw) (d : Dir) (nm : Name) (h : nm ∈ d) :
    funfs_create_file k d nm = (none, d) := by
  unfold funfs_create_file lookup_one_len
  cases k.lookupErr <;> simp [h]

theorem create_file_of_fail (k : Draw) (d : Dir) (nm : Name)
    (h : k.lookupErr = true ∨ k.inodeOk = false) :
    funfs_create_file k d nm = (none, d) := by
  unfold funfs_create_file lookup_one_len funfs_make_inode
  by_cases hm : nm ∈ d <;> rcases h with h | h <;> cases hl : k.lookupErr <;>
    simp_all

theorem create_file_of_fresh (k : Draw) (d : Dir) (nm : Name) (h : nm ∉ d)
    (hl : k.lookupErr = false) (hi : k.inodeOk = true) :
    funfs_create_file k d nm = (some nm, nm :: d) := by
  unfold funfs_create_file lookup_one_len funfs_make_inode
  simp [h, hl, hi]

/-- The two possible effects of `funfs_create_file` on the directory. -/
theorem create_file_snd (k : Draw) (d : Dir) (nm : Name) :
    (funfs_create_file k d nm).2 = d ∨
      (nm ∉ d ∧ k.lookupErr = false ∧ k.inodeOk = true ∧
        (funfs_create_file k d nm).2 = nm :: d) := by
  by_cases hm : nm ∈ d
  · left; rw [create_file_of_mem k d nm hm]
  · by_cases hl : k.lookupErr = false
    · by_cases hi : k.inodeOk = true
      · right; exact ⟨hm, hl, hi, by rw [create_file_of_fresh k d nm hm hl hi]⟩
      · left; rw [create_file_of_fail k d nm (Or.inr (by simpa using hi))]
    · left; rw [create_file_of_fail k d nm (Or.inl (by simpa using hl))]

theorem create_files_zero (env : Nat → Draw) (d : Dir) :
    funfs_create_files env d ((0 : Nat) : Int) = d := by
  simp [funfs_create_files]

theorem create_files_succ (env : Nat → Draw) (d : Dir) (n : Nat) :
    funfs_create_files env d ((n + 1 : Nat) : Int) =
      (funfs_create_file (env n) (funfs_create_files env d (n : Int)) (drawName (env n))).2 := by
  simp [funfs_create_files, List.range_succ, List.foldl_append]

theorem create_files_toNat (env : Nat → Draw) (d : Dir) (n : Int) :
    funfs_create_files env d n = funfs_create_files env d ((n.toNat : Nat) : Int) := by
  unfold funfs_create_files
  rw [Int.toNat_ofNat]

/-- A property kept by every `funfs_create_file` call of the loop is kept by
`funfs_create_files`. -/
theorem create_files_preserves (P : Dir → Prop) (env : Nat → Draw)
    (hstep : ∀ i d, P d → P (funfs_create_file (env i) d (drawName (env i))).2)
    (d : Dir) (h0 : P d) (n : Int) : P (funfs_create_files env d n) := by
  rw [create_files_toNat]
  induction n.toNat with
  | zero => rw [create_files_zero]; exact h0
  | succ k ih => rw [create_files_succ]; exact hstep _ _ ih

theorem create_files_superset (env : Nat → Draw) (d : Dir) (n : Int) :
    ∀ e ∈ d, e ∈ funfs_create_files env d n := by
  refine create_files_preserves (fun r => ∀ e ∈ d, e ∈ r) env ?_ d (fun _ h => h) n
  intro i r hr e he
  rcases create_file_snd (env i) r (drawName (env i)) with h | ⟨_, _, _, h⟩
  · rw [h]; exact hr e he
  · rw [h]; exact List.mem_cons_of_mem _ (hr e he)

theorem create_files_mem (env : Nat → Draw) (d : Dir) (n : Nat) :
    ∀ e ∈ funfs_create_files env d (n : Int),
      e ∈ d ∨ ∃ i, i < n ∧ e = drawName (env i) := by
  induction n with
  | zero => intro e he; rw [create_files_zero] at he; exact Or.inl he
  | succ k ih =>
    intro e he
    rw [create_files_succ] at he
    rcases create_file_snd (env k) (funfs_create_files env d (k : Int)) (drawName (env k))
      with h | ⟨_, _, _, h⟩
    · rw [h] at he
      rcases ih e he with h1 | ⟨i, hi, h1⟩
      · exact Or.inl h1
      · exact Or.inr ⟨i, by omega, h1⟩
    · rw [h] at he
      rcases List.mem_cons.mp he with h1 | h1
      · exact Or.inr ⟨k, by omega, h1⟩
      · rcases ih e h1 with h2 | ⟨i, hi, h2⟩
        · exact Or.inl h2
        · exact Or.inr ⟨i, by omega, h2⟩

theorem create_files_drawn_mem (env : Nat → Draw) (d : Dir) (n : Nat)
    (hok : AllocOk env n) :
    ∀ i, i < n → drawName (env i) ∈ funfs_create_files env d (n : Int) := by
  induction n with
  | zero => intro i hi; omega
  | succ k ih =>
    intro i hi
    rw [create_files_succ]
    have hk : AllocOk env k := fun j hj => hok j (by omega)
    rcases create_file_snd (env k) (funfs_create_files env d (k : Int)) (drawName (env k))
      with h | ⟨_, _, _, h⟩
    · rw [h]
      by_cases hik : i = k
      · subst hik
        by_contra hc
        have := create_file_of_fresh (env i) _ _ hc (hok i (by omega)).1 (hok i (by omega)).2
        rw [this] at h
        have hl := congrArg List.length h
        simp at hl
      · exact ih hk i (by omega)
    · rw [h]
      by_cases hik : i = k
      · subst hik; exact List.mem_cons_self _ _
      · exact List.mem_cons_of_mem _ (ih hk i (by omega))

theorem create_file_length (k : Draw) (d : Dir) (nm : Name) :
    d.length ≤ (funfs_create_file k d nm).2.length ∧
      (funfs_create_file k d nm).2.length ≤ d.length + 1 := by
  rcases create_file_snd k d nm with h | ⟨_, _, _, h⟩ <;> rw [h] <;> simp

theorem create_files_length (env : Nat → Draw) (d : Dir) (n : Nat) :
    d.length ≤ (funfs_create_files env d (n : Int)).length ∧
      (funfs_create_files env d (n : Int)).length ≤ d.length + n := by
  induction n with
  | zero => rw [create_files_zero]; simp
  | succ k ih =>
    rw [create_files_succ]
    have := create_file_length (env k) (funfs_create_files env d (k : Int)) (drawName (env k))
    omega

/-! ## Canonical directories -/

theorem canonicalIn_spec (lo hi : Int) (e : Name) (h : canonicalIn lo hi e = true) :
    ∃ w, kstrtol e = some w ∧ lo ≤ w ∧ w ≤ hi ∧ printLong w = e := by
  unfold canonicalIn at h
  split at h
  · rename_i w hw
    simp only [Bool.and_eq_true, decide_eq_true_eq] at h
    exact ⟨w, hw, h.1.1, h.1.2, h.2⟩
  · exact Bool.noConfusion h

theorem canonicalIn_snprintf_d (lo hi : Int) (v : Nat) (hlo : lo ≤ (v : Int))
    (hhi : (v : Int) ≤ hi) (hv : v < 2 ^ 31) : canonicalIn lo hi (snprintf_d v) = true := by
  unfold canonicalIn
  rw [kstrtol_snprintf_d v hv]
  simp [hlo, hhi, printLong_eq_snprintf_d v hv]

theorem canonicalIn_mono (lo hi lo2 hi2 : Int) (e : Name) (hlo : lo2 ≤ lo) (hhi : hi ≤ hi2)
    (h : canonicalIn lo hi e = true) : canonicalIn lo2 hi2 e = true := by
  obtain ⟨w, hw, h1, h2, h3⟩ := canonicalIn_spec lo hi e h
  unfold canonicalIn
  rw [hw]
  simp [h3, le_trans hlo h1, le_trans h2 hhi]

theorem drawName_canonical (k : Draw) : canonicalIn 1 100 (drawName k) = true := by
  unfold drawName MAX_FILE_NUM
  have h : k.x % 2 ^ 32 % 100 < 100 := Nat.mod_lt _ (by norm_num)
  exact canonicalIn_snprintf_d 1 100 _ (by push_cast; omega) (by push_cast; omega) (by omega)

theorem canonical_eq_of_value (lo hi lo2 hi2 : Int) (a b : Name)
    (ha : canonicalIn lo hi a = true) (hb : canonicalIn lo2 hi2 b = true)
    (h : kstrtol a = kstrtol b) : a = b := by
  obtain ⟨w, hw, _, _, h3⟩ := canonicalIn_spec lo hi a ha
  obtain ⟨u, hu, _, _, h4⟩ := canonicalIn_spec lo2 hi2 b hb
  rw [hw, hu] at h
  have := Option.some.inj h
  subst this
  rw [← h3, ← h4]

theorem Canonical.distinctValues {lo hi : Int} {d : Dir} (h : Canonical lo hi d) :
    DistinctValues d := by
  constructor
  · intro e he
    obtain ⟨w, hw, _⟩ := canonicalIn_spec lo hi e (h.2 e he)
    rw [hw]; rfl
  · exact List.Nodup.map_on
      (fun a ha b hb hab => canonical_eq_of_value lo hi lo hi a b (h.2 a ha) (h.2 b hb) hab) h.1

theorem Canonical.create_file {lo hi : Int} {d : Dir} (h : Canonical lo hi d) (k : Draw)
    (nm : Name) (hnm : canonicalIn lo hi nm = true) :
    Canonical lo hi (funfs_create_file k d nm).2 := by
  rcases create_file_snd k d nm with h1 | ⟨hfresh, _, _, h1⟩
  · rw [h1]; exact h
  · rw [h1]
    refine ⟨List.nodup_cons.mpr ⟨hfresh, h.1⟩, ?_⟩
    intro e he
    rcases List.mem_cons.mp he with rfl | he
    · exact hnm
    · exact h.2 e he

theorem Canonical.create_files {lo hi : Int} {d : Dir} (h : Canonical lo hi d)
    (hlo : lo ≤ 1) (hhi : 100 ≤ hi) (env : Nat → Draw) (n : Int) :
    Canonical lo hi (funfs_create_files env d n) :=
  create_files_preserves (Canonical lo hi) env
    (fun i _ hr => hr.create_file (env i) _
      (canonicalIn_mono 1 100 lo hi _ hlo hhi (drawName_canonical (env i)))) d h n

theorem Canonical.erase {lo hi : Int} {d : Dir} (h : Canonical lo hi d) (nm : Name) :
    Canonical lo hi (d.erase nm) :=
  ⟨h.1.erase nm, fun e he => h.2 e (List.mem_of_mem_erase he)⟩

theorem unlink_eq (env : Nat → Draw) (s : Stack) (d : Dir) (dentry : Name) :
    funfs_unlink env s d dentry = simple_unlink d dentry ∨
      funfs_unlink env s d dentry = (-1, funfs_create_files env d 2) := by
  unfold funfs_unlink
  dsimp only
  split
  · left; rfl
  · right; rfl

theorem Canonical.unlink {lo hi : Int} {d : Dir} (h : Canonical lo hi d)
    (hlo : lo ≤ 1) (hhi : 100 ≤ hi) (env : Nat → Draw) (s : Stack) (dentry : Name) :
    Canonical lo hi (funfs_unlink env s d dentry).2 := by
  rcases unlink_eq env s d dentry with h1 | h1 <;> rw [h1]
  · exact h.erase dentry
  · exact h.create_files hlo hhi env 2

theorem canonical_nil (lo hi : Int) : Canonical lo hi [] :=
  ⟨List.nodup_nil, fun _ he => absurd he (List.not_mem_nil _)⟩

theorem allDecimal_iff (d : Dir) : AllDecimal d ↔ ∀ e ∈ d, ∃ w, kstrtol e = some w := by
  unfold AllDecimal
  constructor
  · intro h e he
    exact Option.isSome_iff_exists.mp (h e he)
  · intro h e he
    exact Option.isSome_iff_exists.mpr (h e he)

theorem DistinctValues.nodup {d : Dir} (h : DistinctValues d) : d.Nodup :=
  List.Nodup.of_map _ h.2

/-! ## The gate -/

/-- C4. Minimum correctness: on a non-empty directory whose entry names are
decimal integers, the `minnum` left by the scan loop (started at `LONG_MAX`,
updated when `curnum <= minnum`) is the value of some entry and is at most the
value of every entry, whatever `curnum` held before the loop. -/
theorem scanMin_is_minimum (d : Dir) (curnum0 : Int) (hne : d ≠ []) (hdec : AllDecimal d) :
    (∃ e ∈ d, kstrtol e = some (scanMin d curnum0)) ∧
      ∀ e ∈ d, ∀ w, kstrtol e = some w → scanMin d curnum0 ≤ w :=
  ⟨scanMin_attained d curnum0 hne ((allDecimal_iff d).mp hdec),
    fun e he w hw => scan_snd_le_of_mem d (curnum0, LONG_MAX) e w he hw⟩

theorem scanMin_is_minimum_witness :
    (∃ e ∈ [['7'], ['3'], ['9']], kstrtol e = some (scanMin [['7'], ['3'], ['9']] 0)) ∧
      ∀ e ∈ [['7'], ['3'], ['9']], ∀ w, kstrtol e = some w →
        scanMin [['7'], ['3'], ['9']] 0 ≤ w :=
  scanMin_is_minimum [['7'], ['3'], ['9']] 0 (by decide) (by decide)

/-- C1. Gate success: in a directory whose entries are decimal names of
pairwise distinct integers, unlinking a member whose value is the smallest one
present passes the gate `rmnum <= minnum`, runs `simple_unlink`, returns 0,
creates nothing, and leaves exactly the original entries without the requested
one. -/
theorem unlink_minimum_succeeds (env : Nat → Draw) (s : Stack) (d : Dir) (dentry : Name)
    (v : Int) (hd : DistinctValues d) (hmem : dentry ∈ d) (hv : kstrtol dentry = some v)
    (hmin : ∀ e ∈ d, ∀ w, kstrtol e = some w → v ≤ w) :
    kstrtol_store dentry s.rmnum ≤ scanMin d s.curnum ∧
      funfs_unlink env s d dentry = simple_unlink d dentry ∧
      (funfs_unlink env s d dentry).1 = 0 ∧
      (∀ e, e ∈ (funfs_unlink env s d dentry).2 ↔ e ∈ d ∧ e ≠ dentry) ∧
      (funfs_unlink env s d dentry).2.length + 1 = d.length := by
  have hne : d ≠ [] := List.ne_nil_of_mem hmem
  obtain ⟨e, he, hew⟩ := scanMin_attained d s.curnum hne ((allDecimal_iff d).mp hd.1)
  have hgate : kstrtol_store dentry s.rmnum ≤ scanMin d s.curnum := by
    simp only [kstrtol_store, hv]
    exact hmin e he _ hew
  have heq : funfs_unlink env s d dentry = simple_unlink d dentry := by
    unfold funfs_unlink
    simp only [hgate, if_true]
  refine ⟨hgate, heq, ?_, ?_, ?_⟩
  · rw [heq]; rfl
  · intro e
    rw [heq]
    simp only [simple_unlink]
    rw [hd.nodup.mem_erase_iff]
    exact and_comm
  · rw [heq]
    simp only [simple_unlink]
    rw [List.length_erase_of_mem hmem]
    have := List.length_pos_of_mem hmem
    omega

/-- C2. Rejection only adds: when the requested member has a value strictly
greater than the value of some entry, `funfs_unlink` returns -1 and every
entry present before the call, the requested one included, is still present,
whatever the random draws and the allocation results. -/
theorem unlink_rejected_only_adds (env : Nat → Draw) (s : Stack) (d : Dir) (dentry : Name)
    (v : Int) (hmem : dentry ∈ d) (hv : kstrtol dentry = some v)
    (hgt : ∃ e ∈ d, ∃ w, kstrtol e = some w ∧ w < v) :
    (funfs_unlink env s d dentry).1 = -1 ∧
      dentry ∈ (funfs_unlink env s d dentry).2 ∧
      ∀ e ∈ d, e ∈ (funfs_unlink env s d dentry).2 := by
  obtain ⟨e, he, w, hw, hlt⟩ := hgt
  have hle : scanMin d s.curnum ≤ w := scan_snd_le_of_mem d (s.curnum, LONG_MAX) e w he hw
  have hgate : ¬ (kstrtol_store dentry s.rmnum ≤ scanMin d s.curnum) := by
    simp only [kstrtol_store, hv]
    omega
  have heq : funfs_unlink env s d dentry = (-1, funfs_create_files env d 2) := by
    unfold funfs_unlink
    simp only [hgate, if_false]
  rw [heq]
  exact ⟨rfl, create_files_superset env d 2 dentry hmem, create_files_superset env d 2⟩

theorem unlink_minimum_succeeds_witness :
    DistinctValues dir379 ∧
      (funfs_unlink (envOf [0, 1]) ⟨0, 0⟩ dir379 ['3']).1 = 0 ∧
      (funfs_unlink (envOf [0, 1]) ⟨0, 0⟩ dir379 ['3']).2 = [['7'], ['9']] :=
  have h := unlink_minimum_succeeds (envOf [0, 1]) ⟨0, 0⟩ dir379 ['3'] 3
    (by decide) (by decide) (by decide)
    (by
      intro e he w hw
      simp only [dir379, List.mem_cons, List.mem_singleton, List.not_mem_nil, or_false] at he
      rcases he with rfl | rfl | rfl
      · have h3 : kstrtol ['3'] = some 3 := by decide
        rw [h3] at hw; cases hw; decide
      · have h7 : kstrtol ['7'] = some 7 := by decide
        rw [h7] at hw; cases hw; decide
      · have h9 : kstrtol ['9'] = some 9 := by decide
        rw [h9] at hw; cases hw; decide)
  ⟨by decide, h.2.2.1, by decide⟩

theorem unlink_rejected_only_adds_witness :
    (funfs_unlink (envOf [0, 1]) ⟨0, 0⟩ dir379 ['7']).1 = -1 ∧
      ['7'] ∈ (funfs_unlink (envOf [0, 1]) ⟨0, 0⟩ dir379 ['7']).2 ∧
      ∀ e ∈ dir379, e ∈ (funfs_unlink (envOf [0, 1]) ⟨0, 0⟩ dir379 ['7']).2 :=
  unlink_rejected_only_adds (envOf [0, 1]) ⟨0, 0⟩ dir379 ['7'] 7 (by decide) (by decide)
    ⟨['3'], by decide, 3, by decide, by decide⟩

/-! ## The penalty -/

theorem create_file_length_succ_iff (k : Draw) (d : Dir) (nm : Name) :
    (funfs_create_file k d nm).2.length = d.length + 1 ↔
      nm ∉ d ∧ k.lookupErr = false ∧ k.inodeOk = true := by
  constructor
  · intro h
    rcases create_file_snd k d nm with h1 | ⟨h1, h2, h3, _⟩
    · rw [h1] at h; omega
    · exact ⟨h1, h2, h3⟩
  · rintro ⟨h1, h2, h3⟩
    rw [create_file_of_fresh k d nm h1 h2 h3]
    simp

/-- C3 (counterexample). On {3, 7, 9} the rejected `unlink("7")` whose two
draws both give the name 3 leaves 3 entries, not 5. -/
theorem penalty_colliding_draws :
    (funfs_unlink (envOf [2, 2]) ⟨0, 0⟩ dir379 ['7']).1 = -1 ∧
      (funfs_unlink (envOf [2, 2]) ⟨0, 0⟩ dir379 ['7']).2.length = 3 ∧
      ¬ ((funfs_unlink (envOf [2, 2]) ⟨0, 0⟩ dir379 ['7']).2.length = dir379.length + 2) := by
  decide

/-- C3 (amended). A rejected unlink (requested value above the scanned
minimum) returns -1 and leaves between the old number of entries and the old
number plus 2; it leaves exactly the old number plus 2 if and only if the two
drawn names are distinct, both absent from the directory, and both
allocations succeed. -/
theorem penalty_grows_by_at_most_two (env : Nat → Draw) (s : Stack) (d : Dir) (dentry : Name)
    (hrej : scanMin d s.curnum < kstrtol_store dentry s.rmnum) :
    (funfs_unlink env s d dentry).1 = -1 ∧
      d.length ≤ (funfs_unlink env s d dentry).2.length ∧
      (funfs_unlink env s d dentry).2.length ≤ d.length + 2 ∧
      ((funfs_unlink env s d dentry).2.length = d.length + 2 ↔
        (drawName (env 0) ∉ d ∧ drawName (env 1) ∉ d ∧
          drawName (env 0) ≠ drawName (env 1) ∧ AllocOk env 2)) := by
  have hgate : ¬ (kstrtol_store dentry s.rmnum ≤ scanMin d s.curnum) := not_le.mpr hrej
  have heq : funfs_unlink env s d dentry = (-1, funfs_create_files env d 2) := by
    unfold funfs_unlink
    simp only [hgate, if_false]
  have h2 : funfs_create_files env d 2 =
      (funfs_create_file (env 1) (funfs_create_file (env 0) d (drawName (env 0))).2
        (drawName (env 1))).2 := by
    have := create_files_succ env d 1
    rw [create_files_succ env d 0, create_files_zero] at this
    exact this
  rw [heq]
  simp only [h2]
  have b0 := create_file_length (env 0) d (drawName (env 0))
  have b1 := create_file_length (env 1) (funfs_create_file (env 0) d (drawName (env 0))).2
    (drawName (env 1))
  have i0 := create_file_length_succ_iff (env 0) d (drawName (env 0))
  have i1 := create_file_length_succ_iff (env 1)
    (funfs_create_file (env 0) d (drawName (env 0))).2 (drawName (env 1))
  refine ⟨trivial, by omega, by omega, ?_⟩
  constructor
  · intro h
    have e0 : (funfs_create_file (env 0) d (drawName (env 0))).2.length = d.length + 1 := by
      omega
    have e1 := i1.mp (by omega)
    obtain ⟨f0, l0, a0⟩ := i0.mp e0
    rw [create_file_of_fresh (env 0) d _ f0 l0 a0] at e1
    obtain ⟨f1, l1, a1⟩ := e1
    simp only [List.mem_cons, not_or] at f1
    refine ⟨f0, f1.2, fun hc => f1.1 hc.symm, ?_⟩
    intro i hi
    rcases Nat.lt_succ_iff_lt_or_eq.mp hi with hi | rfl
    · have : i = 0 := by omega
      subst this; exact ⟨l0, a0⟩
    · exact ⟨l1, a1⟩
  · rintro ⟨f0, f1, hne, hok⟩
    have e0 := create_file_of_fresh (env 0) d _ f0 (hok 0 (by norm_num)).1 (hok 0 (by norm_num)).2
    rw [e0] at i1 ⊢
    have := i1.mpr ⟨by
      simp only [List.mem_cons, not_or]
      exact ⟨fun hc => hne hc.symm, f1⟩, (hok 1 (by norm_num)).1, (hok 1 (by norm_num)).2⟩
    rw [this]
    simp

theorem penalty_grows_by_at_most_two_witness :
    (funfs_unlink (envOf [0, 1]) ⟨0, 0⟩ dir379 ['7']).1 = -1 ∧
      (funfs_unlink (envOf [0, 1]) ⟨0, 0⟩ dir379 ['7']).2.length = 5 :=
  have h := penalty_grows_by_at_most_two (envOf [0, 1]) ⟨0, 0⟩ dir379 ['7'] (by decide)
  ⟨h.1, h.2.2.2.mpr (by decide)⟩

/-! ## Names that do not parse -/

/-- C6 (the code at the failing input). In the directory holding `abc` and
`3`, `kstrtol` fails on `abc`, `rmnum` keeps what the stack held, and
`unlink("abc")` either removes `abc` and returns 0 (stack value 0) or creates
two files and returns -1 (stack value 5). -/
theorem unlink_unparsable_name :
    kstrtol ['a', 'b', 'c'] = none ∧
      funfs_unlink (envOf [0, 1]) ⟨0, 0⟩ [['a', 'b', 'c'], ['3']] ['a', 'b', 'c']
        = (0, [['3']]) ∧
      funfs_unlink (envOf [0, 1]) ⟨5, 0⟩ [['a', 'b', 'c'], ['3']] ['a', 'b', 'c']
        = (-1, [['2'], ['1'], ['a', 'b', 'c'], ['3']]) := by
  decide

/-! ## No duplicates -/

theorem createSeq_nodup (calls : List (Draw × Name)) : ∀ d : Dir, d.Nodup →
    (createSeq d calls).Nodup := by
  induction calls with
  | nil => intro d h; exact h
  | cons c t ih =>
    intro d h
    unfold createSeq
    rw [List.foldl_cons]
    apply ih
    rcases create_file_snd c.1 d c.2 with h1 | ⟨hf, _, _, h1⟩
    · rw [h1]; exact h
    · rw [h1]; exact List.nodup_cons.mpr ⟨hf, h⟩

theorem createSeq_canonical {lo hi : Int} (calls : List (Draw × Name)) : ∀ d : Dir,
    Canonical lo hi d → (∀ c ∈ calls, canonicalIn lo hi c.2 = true) →
    Canonical lo hi (createSeq d calls) := by
  induction calls with
  | nil => intro d h _; exact h
  | cons c t ih =>
    intro d h hc
    unfold createSeq
    rw [List.foldl_cons]
    exact ih _ (h.create_file c.1 c.2 (hc c (List.mem_cons_self _ _)))
      (fun c2 h2 => hc c2 (List.mem_cons_of_mem _ h2))

/-- A value delivered by `kstrtol` is not below `LONG_MIN`. -/
theorem kstrtol_ge_LONG_MIN (s : Name) (v : Int) (h : kstrtol s = some v) :
    LONG_MIN ≤ v := by
  unfold kstrtol kstrtoll at h
  split at h
  · split at h
    · exact Option.noConfusion h
    · split at h
      · exact Option.noConfusion h
      · rename_i v0 _ hv
        have := Option.some.inj h
        have hv2 : (v0 : Int) ≤ 2 ^ 63 := by exact_mod_cast (not_lt.mp hv)
        unfold LONG_MIN
        omega
  · split at h
    · exact Option.noConfusion h
    · split at h
      · exact Option.noConfusion h
      · have := Option.some.inj h
        unfold LONG_MIN; omega

/-- Over the whole range of a `long` the range condition of `canonicalIn` says
nothing: a name is canonical exactly when it is the plain decimal rendering of
the value `kstrtol` reads from it. -/
theorem canonicalIn_long_iff (e : Name) :
    canonicalIn LONG_MIN LONG_MAX e = true ↔ ∃ w, kstrtol e = some w ∧ printLong w = e := by
  constructor
  · intro h
    obtain ⟨w, hw, _, _, h3⟩ := canonicalIn_spec _ _ e h
    exact ⟨w, hw, h3⟩
  · rintro ⟨w, hw, h3⟩
    unfold canonicalIn
    rw [hw]
    simp [h3, kstrtol_ge_LONG_MIN e w hw, kstrtol_le_LONG_MAX e w hw]

/-- C7 (counterexample). Three inputs at which the claim as stated fails.
(a) On the empty directory a `funfs_create_file` whose inode allocation fails
returns NULL and does not add the absent name `5`.  (b) The directory holding
only `03` has no two entries with equal value, yet `funfs_create_files`
drawing the value 3 adds `3`, and so does the rejected `unlink("03")` next to
the entry `1`: afterwards two entries have the value 3.  (c) On the directory
holding `3` the create call with the name `03` does the same. -/
theorem dedup_claim_fails :
    (['5'] ∉ ([] : Dir) ∧
      funfs_create_file ⟨4, false, false⟩ [] ['5'] = (none, [])) ∧
    (DistinctValues [['0', '3']] ∧
      funfs_create_files (envOf [2]) [['0', '3']] 1 = [['3'], ['0', '3']] ∧
      ¬ DistinctValues (funfs_create_files (envOf [2]) [['0', '3']] 1) ∧
      DistinctValues [['0', '3'], ['1']] ∧
      funfs_unlink (envOf [2, 2]) ⟨0, 0⟩ [['0', '3'], ['1']] ['0', '3']
        = (-1, [['3'], ['0', '3'], ['1']]) ∧
      ¬ DistinctValues (funfs_unlink (envOf [2, 2]) ⟨0, 0⟩ [['0', '3'], ['1']] ['0', '3']).2) ∧
    (DistinctValues [['3']] ∧
      funfs_create_file ⟨0, false, true⟩ [['3']] ['0', '3']
        = (some ['0', '3'], [['0', '3'], ['3']]) ∧
      ¬ DistinctValues (funfs_create_file ⟨0, false, true⟩ [['3']] ['0', '3']).2) := by
  decide

/-- C7 (amended). Dedup invariant: `funfs_create_file` on a name already
present returns NULL and leaves the directory as it is; on an absent name it
adds exactly that entry when the dentry lookup and the inode allocation
succeed, and returns NULL with the directory unchanged when one of them fails.
Consequently no sequence of create calls puts a name twice into a directory
without repeated names; and starting from a directory without repeated names
in which every name is the plain decimal rendering of its value, with create
calls whose names are such renderings too (as every name built by
`funfs_create_files` is), the directory keeps that form and never contains two
entries with equal value.  On such directories the invariant is preserved by
`funfs_create_files` and by both branches of `funfs_unlink`. -/
theorem dedup_invariant :
    (∀ (k : Draw) (d : Dir) (nm : Name), nm ∈ d → funfs_create_file k d nm = (none, d)) ∧
    (∀ (k : Draw) (d : Dir) (nm : Name), nm ∉ d → k.lookupErr = false → k.inodeOk = true →
      funfs_create_file k d nm = (some nm, nm :: d)) ∧
    (∀ (k : Draw) (d : Dir) (nm : Name), k.lookupErr = true ∨ k.inodeOk = false →
      funfs_create_file k d nm = (none, d)) ∧
    (∀ (d : Dir) (calls : List (Draw × Name)), d.Nodup → (createSeq d calls).Nodup) ∧
    (∀ k : Draw, canonicalIn LONG_MIN LONG_MAX (drawName k) = true) ∧
    (∀ (d : Dir) (calls : List (Draw × Name)), Canonical LONG_MIN LONG_MAX d →
      (∀ c ∈ calls, canonicalIn LONG_MIN LONG_MAX c.2 = true) →
      Canonical LONG_MIN LONG_MAX (createSeq d calls) ∧ DistinctValues (createSeq d calls)) ∧
    (∀ (env : Nat → Draw) (d : Dir) (n : Int), Canonical LONG_MIN LONG_MAX d →
      Canonical LONG_MIN LONG_MAX (funfs_create_files env d n) ∧
        DistinctValues (funfs_create_files env d n)) ∧
    (∀ (env : Nat → Draw) (s : Stack) (d : Dir) (dentry : Name),
      Canonical LONG_MIN LONG_MAX d →
      Canonical LONG_MIN LONG_MAX (funfs_unlink env s d dentry).2 ∧
        DistinctValues (funfs_unlink env s d dentry).2) := by
  have hlo : LONG_MIN ≤ 1 := by decide
  have hhi : (100 : Int) ≤ LONG_MAX := by decide
  refine ⟨create_file_of_mem, create_file_of_fresh, create_file_of_fail,
    fun d calls h => createSeq_nodup calls d h, ?_, ?_, ?_, ?_⟩
  · intro k
    exact canonicalIn_mono 1 100 _ _ _ hlo hhi (drawName_canonical k)
  · intro d calls h hc
    have := createSeq_canonical calls d h hc
    exact ⟨this, this.distinctValues⟩
  · intro env d n h
    have := h.create_files hlo hhi env n
    exact ⟨this, this.distinctValues⟩
  · intro env s d dentry h
    have := h.unlink hlo hhi env s dentry
    exact ⟨this, this.distinctValues⟩

theorem dedup_invariant_witness :
    funfs_create_file ⟨2, false, true⟩ dir379 ['3'] = (none, dir379) ∧
      funfs_create_file ⟨4, false, true⟩ dir379 ['5'] = (some ['5'], ['5'] :: dir379) ∧
      Canonical LONG_MIN LONG_MAX [['-', '5'], ['3']] ∧
      DistinctValues (createSeq [['-', '5'], ['3']]
        [(⟨2, false, true⟩, ['3']), (⟨4, false, true⟩, ['5']), (⟨0, false, true⟩, ['-', '7'])]) ∧
      DistinctValues (funfs_create_files (envOf [2, 4, 4]) [['-', '5'], ['3']] 3) ∧
      DistinctValues (funfs_unlink (envOf [6, 6]) ⟨0, 0⟩ dir379 ['7']).2 :=
  ⟨dedup_invariant.1 _ dir379 ['3'] (by decide),
    dedup_invariant.2.1 _ dir379 ['5'] (by decide) rfl rfl,
    by decide,
    (dedup_invariant.2.2.2.2.2.1 [['-', '5'], ['3']] _ (by decide) (by decide)).2,
    (dedup_invariant.2.2.2.2.2.2.1 (envOf [2, 4, 4]) [['-', '5'], ['3']] 3 (by decide)).2,
    (dedup_invariant.2.2.2.2.2.2.2 (envOf [6, 6]) ⟨0, 0⟩ dir379 ['7'] (by decide)).2⟩

/-! ## Population -/

/-- C8. Initial population bound: for every random word `n`, the count
`(n % 11) + 5` passed to `funfs_create_files` lies in [5, 15]; when the root
inode, the root dentry and the allocations of the loop succeed,
`funfs_fill_super` returns 0 and the root directory ends with at least 1 and
at most 15 entries, whatever the draws. -/
theorem fill_super_population (n : Nat) (env : Nat → Draw)
    (hok : AllocOk env ((n % 2 ^ 32) % 11 + 5)) :
    5 ≤ (n % 2 ^ 32) % 11 + 5 ∧ (n % 2 ^ 32) % 11 + 5 ≤ 15 ∧
      funfs_fill_super true true n env =
        (0, some (funfs_create_files env [] (((n % 2 ^ 32) % 11 + 5 : Nat) : Int))) ∧
      1 ≤ (funfs_create_files env [] (((n % 2 ^ 32) % 11 + 5 : Nat) : Int)).length ∧
      (funfs_create_files env [] (((n % 2 ^ 32) % 11 + 5 : Nat) : Int)).length ≤ 15 := by
  have hlt : (n % 2 ^ 32) % 11 < 11 := Nat.mod_lt _ (by norm_num)
  refine ⟨by omega, by omega, ?_, ?_, ?_⟩
  · simp [funfs_fill_super]
  · exact List.length_pos_of_mem
      (create_files_drawn_mem env [] _ hok 0 (by omega))
  · have := (create_files_length env [] ((n % 2 ^ 32) % 11 + 5)).2
    simp only [List.length_nil] at this
    omega

theorem fill_super_population_witness :
    funfs_fill_super true true 13 (envOf [0, 0, 5, 0, 99, 5, 7]) =
      (0, some [['8'], ['1', '0', '0'], ['6'], ['1']]) :=
  (fill_super_population 13 (envOf [0, 0, 5, 0, 99, 5, 7])
    (fun _ _ => ⟨rfl, rfl⟩)).2.2.1.trans (by decide)

/-- C9 (counterexample). With the inode allocation failing, one iteration on
the empty directory leaves it empty although the drawn name is `1`: the result
is not the union of the directory and the drawn names. -/
theorem create_files_not_exact_union :
    ¬ (∀ e, e ∈ funfs_create_files (envNoInode [0]) [] 1 ↔
        (e ∈ ([] : Dir) ∨ ∃ i, i < 1 ∧ e = drawName (envNoInode [0] i))) := by
  intro h
  have h1 : ['1'] ∈ funfs_create_files (envNoInode [0]) [] 1 :=
    (h ['1']).mpr (Or.inr ⟨0, by decide, by decide⟩)
  exact absurd h1 (by decide)

/-- C9 (amended). Populate postcondition: `funfs_create_files(n)` with the raw
words `x_i` keeps every entry of the directory and adds only names of values
`(x_i % 100) + 1`, which lie in [1, 100]; a draw whose name is present is
dropped without retry; the entry count grows by at most `n`, so from the
empty directory it ends at most `n`; and when every dentry lookup and inode
allocation of the loop succeeds, the resulting entry set is exactly the
directory together with the `n` drawn names. -/
theorem create_files_postcondition (env : Nat → Draw) (d : Dir) (n : Int) :
    (∀ e ∈ d, e ∈ funfs_create_files env d n) ∧
    (∀ e ∈ funfs_create_files env d n, e ∈ d ∨ ∃ i, i < n.toNat ∧ e = drawName (env i)) ∧
    (AllocOk env n.toNat → ∀ e, e ∈ funfs_create_files env d n ↔
      (e ∈ d ∨ ∃ i, i < n.toNat ∧ e = drawName (env i))) ∧
    (∀ i, drawName (env i) = snprintf_d (((env i).x % 2 ^ 32) % 100 + 1) ∧
      kstrtol (drawName (env i)) = some ((((env i).x % 2 ^ 32) % 100 + 1 : Nat) : Int) ∧
      1 ≤ ((env i).x % 2 ^ 32) % 100 + 1 ∧ ((env i).x % 2 ^ 32) % 100 + 1 ≤ 100) ∧
    (∀ (k : Draw) (r : Dir), drawName k ∈ r → (funfs_create_file k r (drawName k)).2 = r) ∧
    (funfs_create_files env d n).length ≤ d.length + n.toNat ∧
    (funfs_create_files env [] n).length ≤ n.toNat := by
  have hmem := create_files_mem env d n.toNat
  rw [← create_files_toNat] at hmem
  refine ⟨create_files_superset env d n, hmem, ?_, ?_, ?_, ?_, ?_⟩
  · intro hok e
    constructor
    · exact hmem e
    · rintro (h | ⟨i, hi, rfl⟩)
      · exact create_files_superset env d n e h
      · rw [create_files_toNat]
        exact create_files_drawn_mem env d n.toNat hok i hi
  · intro i
    have hlt : ((env i).x % 2 ^ 32) % 100 < 100 := Nat.mod_lt _ (by norm_num)
    exact ⟨rfl, kstrtol_snprintf_d (((env i).x % 2 ^ 32) % 100 + 1) (by omega),
      by omega, by omega⟩
  · intro k r h
    rw [create_file_of_mem k r _ h]
  · rw [create_files_toNat]
    exact (create_files_length env d n.toNat).2
  · rw [create_files_toNat]
    have := (create_files_length env [] n.toNat).2
    simpa using this

theorem create_files_postcondition_witness :
    ∀ e, e ∈ funfs_create_files (envOf [2, 4, 4]) dir379 3 ↔
      (e ∈ dir379 ∨ ∃ i, i < 3 ∧ e = drawName (envOf [2, 4, 4] i)) :=
  (create_files_postcondition (envOf [2, 4, 4]) dir379 3).2.2.1 (fun _ _ => ⟨rfl, rfl⟩)

/-! ## Reachable directories -/

theorem reachable_canonical (d : Dir) (h : Reachable d) : Canonical 1 100 d := by
  induction h with
  | mount ri rd n env d heq =>
    unfold funfs_fill_super at heq
    split at heq
    · exact absurd (congrArg Prod.snd heq) (by simp)
    · split at heq
      · exact absurd (congrArg Prod.snd heq) (by simp)
      · have := Option.some.inj (congrArg Prod.snd heq)
        rw [← this]
        exact (canonical_nil 1 100).create_files (le_refl _) (le_refl _) env _
  | unlink env s d dentry _ ih =>
    exact ih.unlink (le_refl _) (le_refl _) env s dentry

theorem canonical_mem_allNames (e : Name) (h : canonicalIn 1 100 e = true) :
    e ∈ allNames := by
  obtain ⟨w, _, h1, h2, h3⟩ := canonicalIn_spec 1 100 e h
  have hw : ((w.toNat : Nat) : Int) = w := Int.toNat_of_nonneg (by omega)
  unfold allNames MAX_FILE_NUM
  rw [List.mem_map]
  refine ⟨w.toNat, ?_, ?_⟩
  · rw [List.mem_range'_1]
    omega
  · rw [← printLong_eq_snprintf_d w.toNat (by omega), hw]
    exact h3

theorem allNames_length : allNames.length = 100 := by
  simp [allNames, MAX_FILE_NUM]

theorem drawName_mem_allNames (k : Draw) : drawName k ∈ allNames :=
  canonical_mem_allNames _ (drawName_canonical k)

theorem canonical_subperm (d : Dir) (h : Canonical 1 100 d) : List.Subperm d allNames :=
  List.subperm_of_subset h.1 (fun e he => canonical_mem_allNames e (h.2 e he))

/-- A canonical directory with 100 entries holds every name, so the penalty
loop changes nothing. -/
theorem create_files_full (d : Dir) (h : Canonical 1 100 d) (hlen : d.length = 100)
    (env : Nat → Draw) (n : Int) : funfs_create_files env d n = d := by
  have hperm : List.Perm d allNames :=
    (canonical_subperm d h).perm_of_length_le (by rw [allNames_length, hlen])
  refine create_files_preserves (fun r => r = d) env ?_ d rfl n
  intro i r hr
  subst hr
  rw [create_file_of_mem _ _ _ (hperm.mem_iff.mpr (drawName_mem_allNames (env i)))]

/-- C10. Global size bound: every directory reachable from the population of
`funfs_fill_super` by `funfs_unlink` calls (accepted or rejected, any draws,
any allocation results) holds decimal names of pairwise distinct integers
in [1, 100], hence at most 100 entries; and once it holds 100 entries a
rejected unlink adds nothing. -/
theorem reachable_size_bound (d : Dir) (h : Reachable d) :
    DistinctValues d ∧
      (∀ e ∈ d, ∃ v : Int, kstrtol e = some v ∧ 1 ≤ v ∧ v ≤ 100) ∧
      d.length ≤ 100 ∧
      (d.length = 100 → ∀ (env : Nat → Draw) (s : Stack) (dentry : Name),
        (funfs_unlink env s d dentry).1 = -1 → (funfs_unlink env s d dentry).2 = d) := by
  have hc := reachable_canonical d h
  refine ⟨hc.distinctValues, ?_, ?_, ?_⟩
  · intro e he
    obtain ⟨w, hw, h1, h2, _⟩ := canonicalIn_spec 1 100 e (hc.2 e he)
    exact ⟨w, hw, h1, h2⟩
  · have := (canonical_subperm d hc).length_le
    rw [allNames_length] at this
    exact this
  · intro hlen env s dentry hres
    rcases unlink_eq env s d dentry with h1 | h1
    · rw [h1] at hres
      exact absurd hres (by simp [simple_unlink])
    · rw [h1]
      exact create_files_full d hc hlen env 2

theorem fillRun_reachable (k : Nat) : Reachable (fillRun k) := by
  induction k with
  | zero => exact Reachable.mount true true 9 (fun i => ⟨i, false, true⟩) _ (by decide)
  | succ k ih => exact Reachable.unlink _ _ _ _ ih

set_option maxRecDepth 100000 in
theorem fillRun_length : (fillRun 43).length = 100 := by decide

set_option maxRecDepth 100000 in
theorem reachable_size_bound_witness :
    (fillRun 43).length = 100 ∧
      (funfs_unlink (envOf [5, 6]) ⟨0, 0⟩ (fillRun 43) ['2']).1 = -1 ∧
      (funfs_unlink (envOf [5, 6]) ⟨0, 0⟩ (fillRun 43) ['2']).2 = fillRun 43 :=
  ⟨fillRun_length, by decide,
    (reachable_size_bound (fillRun 43) (fillRun_reachable 43)).2.2.2 fillRun_length
      (envOf [5, 6]) ⟨0, 0⟩ ['2'] (by decide)⟩

end Funfs
